import Mathlib

/-!
Verification of the date/money format-and-parse core of totallylazy.js.

The TypeScript source is shallowly embedded: part sequences become lists of
a `DateTimeFormatPart` structure, imperative loops become structural
recursions, regular-expression components become explicit matcher atoms with
backtracking semantics, exceptions become `Except`/`Option`, and the external
host facilities (the locale formatter, locale case folding, the datum lookup
tables that live outside the analysed sources) are modelled from the
specification, as marked in the individual doc comments.
-/

namespace TL

/-- The part types of Intl.DateTimeFormatPart / NumberFormatPart used by the
source: year, month, day, weekday, literal for dates; integer, group,
decimal, fraction, currency for money. -/
inductive PartType where
  | year | month | day | weekday | literal
  | integer | group | decimal | fraction | currency
deriving DecidableEq, Repr

/-- Embeds DateTimeFormatPart / NumberFormatPart: a typed fragment of a
formatted string.  The value is kept as a character list. -/
structure DateTimeFormatPart where
  type : PartType
  value : List Char
deriving DecidableEq, Repr

/-- Concatenation of the value fields of a part sequence, in order. -/
def concatValues (parts : List DateTimeFormatPart) : List Char :=
  match parts with
  | [] => []
  | p :: rest => p.value ++ concatValues rest

/-- ASCII digit test used by the embedded digit patterns. -/
def isDigitChar (c : Char) : Bool :=
  decide (48 ≤ c.toNat ∧ c.toNat ≤ 57)

/-- Numeric value of a base-10 digit character. -/
def digitVal (c : Char) : Nat := c.toNat - 48

/-- Base-10 value of a digit string, embedding what JavaScript parseInt
computes on an all-digit string. -/
def digitsToNat (cs : List Char) : Nat :=
  cs.foldl (fun a c => a * 10 + digitVal c) 0

/-- Embeds JavaScript parseInt on a captured token: it reads the leading run
of base-10 digits and fails (NaN) when there is none. -/
def parseIntModel (cs : List Char) : Option Nat :=
  match cs.takeWhile isDigitChar with
  | [] => none
  | run => some (digitsToNat run)

/-- Modelled from the spec: locale-aware case folding
toLowerCase(text, locale) (spec section 6, collaborator contracts), which is
host functionality not present in the analysed sources.  Modelled as ASCII
lowercasing, character by character. -/
def toLowerModel (c : Char) : Char :=
  if 65 ≤ c.toNat ∧ c.toNat ≤ 90 then Char.ofNat (c.toNat + 32) else c

/-- Lowercase a whole text with the modelled case folding. -/
def toLowerL (cs : List Char) : List Char := cs.map toLowerModel

/-- Modelled from the spec: DatumLookup.parse (spec section 4.1), whose
implementation lives outside the analysed sources: it case-normalizes with
the locale case rules and then performs exact lookup, failing with NotFound
(here: none) when no entry matches. -/
def datumParse (table : List (List Char × Nat)) (txt : List Char) : Option Nat :=
  match table.find? (fun e => toLowerL e.1 = toLowerL txt) with
  | some e => some e.2
  | none => none

/-- Modelled from the spec: Months.parse (spec section 4.4), outside the
analysed sources: a month token parses as a plain 1-based base-10 integer
when numeric, and otherwise resolves through the datum lookup. -/
def monthsParse (table : List (List Char × Nat)) (txt : List Char) : Option Nat :=
  if txt ≠ [] ∧ txt.all isDigitChar then some (digitsToNat txt)
  else datumParse table txt

/-- Modelled from the spec: Weekdays.parse (spec section 4.1), outside the
analysed sources: resolves a weekday name through the datum lookup. -/
def weekdaysParse (table : List (List Char × Nat)) (txt : List Char) : Option Nat :=
  datumParse table txt

/-! ## FormatToParts post-processing (dates module) -/

/-- Embeds FormatToParts.parsable: Boolean(lookup.parse(value)) with the
NotFound exception swallowed, so it reports whether the token resolves. -/
def parsable (lookupParse : List Char → Option Nat) (value : List Char) : Bool :=
  (lookupParse value).isSome

/-- Embeds FormatToParts.getType: a token captured by the month or weekday
group is labelled month when the month lookup resolves it, otherwise weekday
when the weekday lookup resolves it, otherwise literal; all other group
names pass through unchanged. -/
def getType (months weekdays : List (List Char × Nat))
    (type : PartType) (value : List Char) : PartType :=
  if type = .month ∨ type = .weekday then
    if parsable (monthsParse months) value then .month
    else if parsable (weekdaysParse weekdays) value then .weekday
    else .literal
  else type

theorem length_dropWhile_le (p : α → Bool) (l : List α) :
    (l.dropWhile p).length ≤ l.length := by
  induction l with
  | nil => simp [List.dropWhile]
  | cons a l ih =>
    by_cases h : p a
    · simp only [List.dropWhile, h]
      exact Nat.le_trans ih (Nat.le_succ _)
    · simp [List.dropWhile, h]

/-- Embeds FormatToParts.collapseLiterals: the imperative splice loop that
merges each run of adjacent literal parts into one literal part whose value
is the concatenation of the run, rendered as a structural recursion. -/
def collapseLiterals (parts : List DateTimeFormatPart) : List DateTimeFormatPart :=
  match parts with
  | [] => []
  | p :: rest =>
    if p.type = .literal then
      let lits := rest.takeWhile (fun q => q.type = .literal)
      let rest' := rest.dropWhile (fun q => q.type = .literal)
      ⟨.literal, p.value ++ concatValues lits⟩ :: collapseLiterals rest'
    else
      p :: collapseLiterals rest
termination_by parts.length
decreasing_by
  · exact Nat.lt_succ_of_le (length_dropWhile_le _ _)
  · simp

/-- Embeds the per-match retyping inside FormatToParts.formatToParts followed
by the final collapseLiterals pass: each named capture (group name, captured
value) becomes a part whose type is decided by getType. -/
def formatToPartsModel (months weekdays : List (List Char × Nat))
    (ms : List (PartType × List Char)) : List DateTimeFormatPart :=
  collapseLiterals (ms.map (fun m => ⟨getType months weekdays m.1 m.2, m.2⟩))

/-- No two consecutive parts of a sequence both have type literal. -/
def noTwoLiterals (parts : List DateTimeFormatPart) : Prop :=
  List.Chain' (fun a b => ¬(a.type = .literal ∧ b.type = .literal)) parts

/-! ## Composite date parser (parsing module) -/

/-- A calendar date as assembled by the date constructor; modelled from the
spec (section 3): year, 1-based month, day at UTC midnight. -/
structure DateYMD where
  year : Nat
  month : Nat
  day : Nat
deriving DecidableEq, Repr

/-- The typed parse errors of the parsing module. -/
inductive DateError where
  | unparseable (text : List Char)
  | noMatch (text : List Char)
deriving DecidableEq, Repr

/-- A date parser as seen by CompositeDateParser: parse and parseAll, with
thrown exceptions embedded as Except errors. -/
structure DateParserM where
  parse : List Char → Except DateError DateYMD
  parseAll : List Char → Except DateError (List DateYMD)

/-- Boolean success test for an Except value. -/
def isOkE (e : Except ε α) : Bool :=
  match e with
  | .ok _ => true
  | .error _ => false

/-- Embeds CompositeDateParser.parse: try each candidate in order, swallow
its failure, return the first success, and throw the unparseable error
carrying the input once every candidate has failed. -/
def compositeParse (parsers : List DateParserM) (value : List Char) :
    Except DateError DateYMD :=
  match parsers with
  | [] => .error (.unparseable value)
  | p :: rest =>
    match p.parse value with
    | .ok d => .ok d
    | .error _ => compositeParse rest value

/-- Embeds CompositeDateParser.parseAll: flatten(parsers.map(p =>
p.parseAll(value))); each candidate scan runs in order and an exception from
any of them propagates. -/
def compositeParseAll (parsers : List DateParserM) (value : List Char) :
    Except DateError (List DateYMD) :=
  match parsers with
  | [] => .ok []
  | p :: rest => do
    let r ← p.parseAll value
    let rs ← compositeParseAll rest value
    pure (r ++ rs)

theorem head?_dropWhile_not (p : α → Bool) (l : List α) :
    ∀ a, (l.dropWhile p).head? = some a → p a = false := by
  induction l with
  | nil => intro a h; simp [List.dropWhile] at h
  | cons x l ih =>
    intro a h
    by_cases hx : p x
    · simp only [List.dropWhile_cons, if_pos hx] at h
      exact ih a h
    · simp only [List.dropWhile_cons, if_neg hx] at h
      simp only [List.head?_cons, Option.some.injEq] at h
      rw [← h]
      exact Bool.of_not_eq_true hx

theorem collapseLiterals_head (l : List DateTimeFormatPart) (b : DateTimeFormatPart)
    (hb : (collapseLiterals l).head? = some b) :
    ∃ q, l.head? = some q ∧ b.type = q.type := by
  cases l with
  | nil => simp [collapseLiterals] at hb
  | cons p rest =>
    unfold collapseLiterals at hb
    by_cases hp : p.type = .literal
    · rw [if_pos hp] at hb
      simp only [List.head?_cons, Option.some.injEq] at hb
      exact ⟨p, rfl, by rw [← hb, hp]⟩
    · rw [if_neg hp] at hb
      simp only [List.head?_cons, Option.some.injEq] at hb
      exact ⟨p, rfl, by rw [← hb]⟩

theorem collapseLiterals_noTwo :
    ∀ (n : Nat) (l : List DateTimeFormatPart), l.length ≤ n →
      noTwoLiterals (collapseLiterals l) := by
  intro n
  induction n with
  | zero =>
    intro l h
    have : l = [] := List.eq_nil_of_length_eq_zero (Nat.le_zero.mp h)
    subst this
    simp [collapseLiterals, noTwoLiterals]
  | succ n ih =>
    intro l hl
    cases l with
    | nil => simp [collapseLiterals, noTwoLiterals]
    | cons p rest =>
      have hrest : rest.length ≤ n := by
        simpa using Nat.lt_succ_iff.mp (Nat.lt_of_lt_of_le (by simp) hl)
      unfold collapseLiterals
      by_cases hp : p.type = .literal
      · rw [if_pos hp]
        have hdrop : (rest.dropWhile (fun q => q.type = .literal)).length ≤ n :=
          Nat.le_trans (length_dropWhile_le _ _) hrest
        rw [noTwoLiterals, List.chain'_cons']
        refine ⟨?_, ih _ hdrop⟩
        intro b hb
        obtain ⟨q, hq, hbt⟩ := collapseLiterals_head _ b hb
        have hqn := head?_dropWhile_not (fun q => q.type = .literal) _ q hq
        simp only [decide_eq_false_iff_not] at hqn
        intro hcontra
        exact hqn (hbt ▸ hcontra.2)
      · rw [if_neg hp]
        rw [noTwoLiterals, List.chain'_cons']
        refine ⟨?_, ih rest hrest⟩
        intro b _
        intro hcontra
        exact hp hcontra.1

/-- C3: the TypedPart sequence produced by the format-part emulation engine
(the retyping of the raw capture list followed by the collapseLiterals pass)
never contains two consecutive parts of type literal, for every months and
weekdays table and every raw capture list. -/
theorem claim3_literal_collapsing (months weekdays : List (List Char × Nat))
    (ms : List (PartType × List Char)) :
    noTwoLiterals (formatToPartsModel months weekdays ms) := by
  unfold formatToPartsModel
  exact collapseLiterals_noTwo _ _ (Nat.le_refl _)

/-- C4: a token captured by a month or weekday group is labelled month when
it resolves in the month lookup, otherwise weekday when it resolves in the
weekday lookup, and is otherwise reclassified as literal. -/
theorem claim4_match_time_reclassification (months weekdays : List (List Char × Nat))
    (ty : PartType) (v : List Char) (h : ty = .month ∨ ty = .weekday) :
    getType months weekdays ty v =
      if (monthsParse months v).isSome then .month
      else if (weekdaysParse weekdays v).isSome then .weekday
      else .literal := by
  unfold getType parsable
  rw [if_pos h]

/-- C4 witness: in a locale whose month table holds only jan and whose
weekday table holds only fri, the token fri captured by a month group is
reclassified as weekday. -/
theorem claim4_witness :
    getType [(['j', 'a', 'n'], 1)] [(['f', 'r', 'i'], 5)] .month ['f', 'r', 'i'] = .weekday := by
  rw [claim4_match_time_reclassification _ _ _ _ (Or.inl rfl)]
  decide

/-- C2: the composite date parser returns the first candidate success (all
earlier candidates having failed, their failures swallowed), and raises the
unparseable error carrying the input text exactly when every candidate
fails. -/
theorem claim2_composite_first_success (ps : List DateParserM) (v : List Char) :
    (∀ d, compositeParse ps v = .ok d ↔
      ∃ l₁ p l₂, ps = l₁ ++ p :: l₂ ∧ (∀ q ∈ l₁, isOkE (q.parse v) = false) ∧
        p.parse v = .ok d)
    ∧ ((∃ e, compositeParse ps v = .error e) ↔ ∀ p ∈ ps, isOkE (p.parse v) = false)
    ∧ (∀ e, compositeParse ps v = .error e → e = .unparseable v) := by
  induction ps with
  | nil =>
    refine ⟨?_, ?_, ?_⟩
    · intro d
      constructor
      · intro h; simp [compositeParse] at h
      · rintro ⟨l₁, p, l₂, hEq, -, -⟩
        exact absurd hEq (by simp)
    · constructor
      · intro _ q hq; simp at hq
      · intro _; exact ⟨.unparseable v, rfl⟩
    · intro e he
      simp only [compositeParse, Except.error.injEq] at he
      exact he.symm
  | cons p ps ih =>
    obtain ⟨ih1, ih2, ih3⟩ := ih
    cases hp : p.parse v with
    | ok d₀ =>
      have hunfold : compositeParse (p :: ps) v = .ok d₀ := by
        simp [compositeParse, hp]
      refine ⟨?_, ?_, ?_⟩
      · intro d
        constructor
        · intro h
          rw [hunfold] at h
          refine ⟨[], p, ps, rfl, by simp, ?_⟩
          rw [hp]
          exact h
        · rintro ⟨l₁, q, l₂, hEq, hFail, hOk⟩
          cases l₁ with
          | nil =>
            simp only [List.nil_append, List.cons.injEq] at hEq
            rw [hunfold]
            rw [← hEq.1, hp] at hOk
            exact hOk
          | cons r l₁' =>
            simp only [List.cons_append, List.cons.injEq] at hEq
            have hr := hFail r (by simp)
            rw [← hEq.1, hp] at hr
            simp [isOkE] at hr
      · constructor
        · rintro ⟨e, he⟩
          rw [hunfold] at he
          exact absurd he (by simp)
        · intro hAll
          have := hAll p (by simp)
          rw [hp] at this
          simp [isOkE] at this
      · intro e he
        rw [hunfold] at he
        exact absurd he (by simp)
    | error e₀ =>
      have hunfold : compositeParse (p :: ps) v = compositeParse ps v := by
        simp [compositeParse, hp]
      refine ⟨?_, ?_, ?_⟩
      · intro d
        rw [hunfold]
        constructor
        · intro h
          obtain ⟨l₁, q, l₂, hEq, hFail, hOk⟩ := (ih1 d).mp h
          refine ⟨p :: l₁, q, l₂, by simp [hEq], ?_, hOk⟩
          intro r hr
          rcases List.mem_cons.mp hr with h1 | h2
          · rw [h1, hp]; rfl
          · exact hFail r h2
        · rintro ⟨l₁, q, l₂, hEq, hFail, hOk⟩
          cases l₁ with
          | nil =>
            simp only [List.nil_append, List.cons.injEq] at hEq
            rw [← hEq.1, hp] at hOk
            exact absurd hOk (by simp)
          | cons r l₁' =>
            simp only [List.cons_append, List.cons.injEq] at hEq
            exact (ih1 d).mpr ⟨l₁', q, l₂, hEq.2, fun s hs => hFail s (by simp [hs]), hOk⟩
      · rw [hunfold]
        constructor
        · intro h q hq
          rcases List.mem_cons.mp hq with h1 | h2
          · rw [h1, hp]; rfl
          · exact ih2.mp h q h2
        · intro hAll
          exact ih2.mpr (fun q hq => hAll q (by simp [hq]))
      · intro e he
        rw [hunfold] at he
        exact ih3 e he

/-! ## Money module: number-format parts -/

/-- The capture-group names of the generated money pattern: the combined
integer-and-group capture, or a plain part-typed group. -/
inductive MoneyGroupName where
  | integerGroup
  | plain (t : PartType)
deriving DecidableEq, Repr

/-- Run accumulator for IntegerGroupParser.parse: cur holds the current run
reversed, curClass whether it is a matching (integer) run. -/
def integerGroupRuns (pred : Char → Bool) (cur : List Char) (curClass : Bool) :
    List Char → List DateTimeFormatPart
  | [] => [⟨if curClass then .integer else .group, cur.reverse⟩]
  | c :: rest =>
    if pred c = curClass then integerGroupRuns pred (c :: cur) curClass rest
    else
      ⟨if curClass then .integer else .group, cur.reverse⟩ ::
        integerGroupRuns pred [c] (pred c) rest

/-- Embeds IntegerGroupParser.parse: iterating a single-run pattern over a
string splits it into maximal matching runs (type integer) and the gaps
between them (type group).  The instances digits and integerFormat use the
predicates below. -/
def integerGroupParse (pred : Char → Bool) (cs : List Char) : List DateTimeFormatPart :=
  match cs with
  | [] => []
  | c :: rest => integerGroupRuns pred [c] (pred c) rest

/-- IntegerGroupParser.digits: digit runs are integer parts. -/
def igDigits (cs : List Char) : List DateTimeFormatPart :=
  integerGroupParse isDigitChar cs

/-- IntegerGroupParser.integerFormat: runs of the sentinel i are integer
parts. -/
def igFormat (cs : List Char) : List DateTimeFormatPart :=
  integerGroupParse (fun c => c = 'i') cs

/-- Embeds NumberFormatPartParser.convert: matches with an empty captured
value are filtered out, an integer-group capture is split by the digits
parser, and every other capture becomes one part of its group's type. -/
def convert (ms : List (MoneyGroupName × List Char)) : List DateTimeFormatPart :=
  match ms with
  | [] => []
  | m :: rest =>
    if m.2 = [] then convert rest
    else
      (match m.1 with
       | .integerGroup => igDigits m.2
       | .plain t => [⟨t, m.2⟩]) ++ convert rest

/-- Concatenation of the captured values of a named-match list. -/
def concatNamed {α : Type} (ms : List (α × List Char)) : List Char :=
  match ms with
  | [] => []
  | m :: rest => m.2 ++ concatNamed rest

theorem concatValues_append (a b : List DateTimeFormatPart) :
    concatValues (a ++ b) = concatValues a ++ concatValues b := by
  induction a with
  | nil => simp [concatValues]
  | cons p a ih => simp [concatValues, ih]

theorem integerGroupRuns_concat (pred : Char → Bool) :
    ∀ (cs cur : List Char) (curClass : Bool),
      concatValues (integerGroupRuns pred cur curClass cs) = cur.reverse ++ cs := by
  intro cs
  induction cs with
  | nil => intro cur curClass; simp [integerGroupRuns, concatValues]
  | cons c rest ih =>
    intro cur curClass
    unfold integerGroupRuns
    by_cases hc : pred c = curClass
    · rw [if_pos hc, ih]
      simp
    · rw [if_neg hc]
      simp only [concatValues, ih]
      simp

theorem integerGroupParse_concat (pred : Char → Bool) (cs : List Char) :
    concatValues (integerGroupParse pred cs) = cs := by
  cases cs with
  | nil => simp [integerGroupParse, concatValues]
  | cons c rest =>
    unfold integerGroupParse
    rw [integerGroupRuns_concat]
    simp

theorem collapseLiterals_concat :
    ∀ (n : Nat) (l : List DateTimeFormatPart), l.length ≤ n →
      concatValues (collapseLiterals l) = concatValues l := by
  intro n
  induction n with
  | zero =>
    intro l h
    have : l = [] := List.eq_nil_of_length_eq_zero (Nat.le_zero.mp h)
    subst this
    simp [collapseLiterals]
  | succ n ih =>
    intro l h
    cases l with
    | nil => simp [collapseLiterals]
    | cons p rest =>
      have hrest : rest.length ≤ n := by
        simpa using Nat.lt_succ_iff.mp (Nat.lt_of_lt_of_le (by simp) h)
      unfold collapseLiterals
      by_cases hp : p.type = .literal
      · rw [if_pos hp]
        have hdrop : (rest.dropWhile (fun q => q.type = .literal)).length ≤ n :=
          Nat.le_trans (length_dropWhile_le _ _) hrest
        simp only [concatValues, ih _ hdrop, List.append_assoc]
        congr 1
        rw [← concatValues_append, List.takeWhile_append_dropWhile]
      · rw [if_neg hp]
        simp only [concatValues, ih _ hrest]

theorem retag_concat (months weekdays : List (List Char × Nat))
    (ms : List (PartType × List Char)) :
    concatValues (ms.map (fun m => (⟨getType months weekdays m.1 m.2, m.2⟩ :
      DateTimeFormatPart))) = concatNamed ms := by
  induction ms with
  | nil => simp [concatValues, concatNamed]
  | cons m rest ih => simp [concatValues, concatNamed, ih]

theorem convert_concat (ms : List (MoneyGroupName × List Char)) :
    concatValues (convert ms) = concatNamed ms := by
  induction ms with
  | nil => simp [convert, concatNamed, concatValues]
  | cons m rest ih =>
    unfold convert
    by_cases hm : m.2 = []
    · rw [if_pos hm]
      simp [concatNamed, hm, ih]
    · rw [if_neg hm]
      cases hn : m.1 with
      | integerGroup =>
        simp only [concatValues_append, ih, concatNamed]
        rw [igDigits, integerGroupParse_concat]
      | plain t =>
        simp [concatValues_append, concatValues, ih, concatNamed]

/-- C7: the part-sequence post-processing of both decompositions preserves
the concatenation of captured values: for dates, retyping plus literal
collapsing; for money, the convert step with its integer-group splitting.
Since every component of the generated pattern is a capture group and the
match is anchored, the raw captures concatenate to the formatted string, so
the final TypedPart values concatenate to that string exactly. -/
theorem claim7_value_concatenation :
    (∀ (months weekdays : List (List Char × Nat)) (ms : List (PartType × List Char)),
      concatValues (formatToPartsModel months weekdays ms) = concatNamed ms)
    ∧ ∀ (ms : List (MoneyGroupName × List Char)),
      concatValues (convert ms) = concatNamed ms := by
  constructor
  · intro months weekdays ms
    unfold formatToPartsModel
    rw [collapseLiterals_concat (ms.map _).length _ (Nat.le_refl _)]
    exact retag_concat months weekdays ms
  · exact convert_concat

/-! ## Money module: explicit format templates (C6) -/

/-- Embeds formatFrom (dates module): the sentinel-run length of a date
template maps to the display-width option value, and any other combination
is an illegal argument. -/
def formatFrom (type : PartType) (len : Nat) : Except String String :=
  if type = .year ∧ len = 4 then .ok "numeric"
  else if type = .year ∧ len = 2 then .ok "2-digit"
  else if type = .month ∧ len = 4 then .ok "long"
  else if type = .month ∧ len = 3 then .ok "short"
  else if type = .month ∧ len = 2 then .ok "2-digit"
  else if type = .month ∧ len = 1 then .ok "numeric"
  else if type = .day ∧ len = 2 then .ok "2-digit"
  else if type = .day ∧ len = 1 then .ok "numeric"
  else if type = .weekday ∧ len = 4 then .ok "long"
  else if type = .weekday ∧ len = 3 then .ok "short"
  else .error "Illegal Argument"

/-- Candidate captures, in backtracking order, for the money-format
integer-group alternative: the greedy branch takes the run up to each later
sentinel i (longest first), then the single-character branch. -/
def branchICands (cs : List Char) : List (List Char × List Char) :=
  (((List.range cs.length).reverse.filter
      (fun k => decide (1 ≤ k) && decide (cs.get? k = some 'i'))).map
    (fun k => (cs.take (k + 1), cs.drop (k + 1))))
  ++ [(cs.take 1, cs.drop 1)]

/-- Embeds the integer-group branch of the PartsFromFormat.format pattern:
an integer-group capture, then one non-f decimal character, then a greedy
run of f sentinels.  Returns the three captures and the rest of the input,
or none when the branch cannot match here. -/
def branchI (cs : List Char) : Option (List Char × Char × List Char × List Char) :=
  if cs.head? = some 'i' then
    (branchICands cs).findSome? (fun c =>
      match c.2 with
      | [] => none
      | d :: rest2 =>
        if d = 'f' then none
        else
          match rest2.takeWhile (fun x => x = 'f') with
          | [] => none
          | _ :: _ =>
            some (c.1, d, rest2.takeWhile (fun x => x = 'f'),
              rest2.dropWhile (fun x => x = 'f')))
  else none

/-- A pending unmatched segment becomes one literal part. -/
def flushLit (lit : List Char) : List DateTimeFormatPart :=
  if lit = [] then [] else [⟨.literal, lit⟩]

/-- Embeds PartsFromFormat.format.parse: scan the template left to right
for matches of the money-format pattern (integer-group/decimal/fraction, or
a currency run of C); unmatched segments become literal parts; a matched
integer-group is split by the integerFormat sub-parser. -/
def parseFmtAux : Nat → List Char → List Char → List DateTimeFormatPart
  | _, lit, [] => flushLit lit
  | 0, lit, cs => flushLit (lit ++ cs)
  | fuel + 1, lit, c :: t =>
    if c = 'C' then
      flushLit lit ++ [⟨.currency, c :: t.takeWhile (fun x => x = 'C')⟩]
        ++ parseFmtAux fuel [] (t.dropWhile (fun x => x = 'C'))
    else
      match branchI (c :: t) with
      | some (ig, d, fr, rest) =>
        flushLit lit ++ igFormat ig ++ [⟨.decimal, [d]⟩, ⟨.fraction, fr⟩]
          ++ parseFmtAux fuel [] rest
      | none => parseFmtAux fuel (lit ++ [c]) t

/-- The money-format template parser, with enough fuel for the whole
template. -/
def partsFromFormatMoney (cs : List Char) : List DateTimeFormatPart :=
  parseFmtAux (cs.length + 1) [] cs

/-- The printed name of a part type, as interpolated into patterns. -/
def typeName : PartType → String
  | .year => "year"
  | .month => "month"
  | .day => "day"
  | .weekday => "weekday"
  | .literal => "literal"
  | .integer => "integer"
  | .group => "group"
  | .decimal => "decimal"
  | .fraction => "fraction"
  | .currency => "currency"

/-- Embeds Spaces.handle: an ordinary, no-break or narrow no-break space is
widened to the class of all three; anything else is kept. -/
def spacesHandle (v : String) : String :=
  if v = String.mk [Char.ofNat 32] ∨ v = String.mk [Char.ofNat 160]
      ∨ v = String.mk [Char.ofNat 8239] then
    String.mk [Char.ofNat 32, Char.ofNat 160, Char.ofNat 8239]
  else v

/-- Helper for dedupe(by(type)): prev is the part kept last. -/
def dedupeByTypeAux (prev : DateTimeFormatPart) :
    List DateTimeFormatPart → List DateTimeFormatPart
  | [] => []
  | q :: rest =>
    if q.type = prev.type then dedupeByTypeAux prev rest
    else q :: dedupeByTypeAux q rest

/-- Embeds dedupe(by(type)): drops each part whose type equals the type of
the part kept immediately before it. -/
def dedupeByType (parts : List DateTimeFormatPart) : List DateTimeFormatPart :=
  match parts with
  | [] => []
  | p :: rest => p :: dedupeByTypeAux p rest

/-- Embeds the money RegexBuilder.buildFrom: group parts are folded into the
integer character class, consecutive same-type parts are deduplicated, and
each remaining part is rendered to its pattern fragment; the currency
alternation is a parameter since the symbol table is locale data. -/
def moneyBuildFrom (currencyPattern : String) (parts : List DateTimeFormatPart) : String :=
  let group := ((parts.filter (fun p => p.type = .group)).map (fun p => p.value)).headD []
  let noGroups := dedupeByType (parts.filter (fun p => p.type ≠ .group))
  String.join (noGroups.map (fun part =>
    match part.type with
    | .currency => "(?<currency>" ++ currencyPattern ++ ")"
    | .decimal => "(?<decimal>[" ++ String.mk part.value ++ "]?)"
    | .fraction => "(?<fraction>\\d*)"
    | .integer => "(?<integer-group>[\\d" ++ spacesHandle (String.mk group) ++ "]*\\d+)"
    | t => "(?<" ++ typeName t ++ ">[" ++ String.mk part.value ++ " ]?)"))
  ++ "(?=\\s|$)"

/-- C6 counterexample: the two money templates CCC iii.fff and C i.f produce
identical generated patterns (here with a fixed stand-in currency
alternation), so sentinel counts do not encode different widths. -/
theorem claim6_counterexample :
    moneyBuildFrom "GBP" (partsFromFormatMoney ("CCC iii.fff").data) =
      moneyBuildFrom "GBP" (partsFromFormatMoney ("C i.f").data) := by
  decide

/-- C6 amended: for money templates the count of the sentinel characters
i, f and C is ignored (CCC iii.fff and C i.f yield the same pattern for
every currency alternation), unlike date templates where the sentinel count
selects the display width. -/
theorem claim6_money_counts_ignored :
    (∀ currencyPattern : String,
      moneyBuildFrom currencyPattern (partsFromFormatMoney ("CCC iii.fff").data) =
        moneyBuildFrom currencyPattern (partsFromFormatMoney ("C i.f").data))
    ∧ formatFrom .month 3 = .ok "short"
    ∧ formatFrom .month 4 = .ok "long"
    ∧ formatFrom .year 2 = .ok "2-digit"
    ∧ formatFrom .year 4 = .ok "numeric" := by
  refine ⟨?_, rfl, rfl, rfl, rfl⟩
  intro currencyPattern
  have h1 : partsFromFormatMoney ("CCC iii.fff").data =
      [⟨.currency, ['C', 'C', 'C']⟩, ⟨.literal, [' ']⟩, ⟨.integer, ['i', 'i', 'i']⟩,
        ⟨.decimal, ['.']⟩, ⟨.fraction, ['f', 'f', 'f']⟩] := by decide
  have h2 : partsFromFormatMoney ("C i.f").data =
      [⟨.currency, ['C']⟩, ⟨.literal, [' ']⟩, ⟨.integer, ['i']⟩,
        ⟨.decimal, ['.']⟩, ⟨.fraction, ['f']⟩] := by decide
  rw [h1, h2]
  rfl

/-! ## Options-object validation (C8) -/

/-- A caller-supplied options object: its own enumerable entries. -/
structure OptionsObj where
  entries : List (String × String)
deriving DecidableEq, Repr

/-- Embeds Formatters.dateTimeFormat's argument construction: the object the
external facility receives is a fresh spread of the given options with a
UTC timeZone entry added. -/
def dateTimeFormatArg (options : OptionsObj) : OptionsObj :=
  ⟨options.entries ++ [("timeZone", "UTC")]⟩

/-- Embeds ImprovedDateTimeFormat.create: clone the caller's options, record
the clone's key count, hand the facility a fresh spread of the clone (via
Formatters.dateTimeFormat), then throw when the clone's key count changed.
The facility is modelled as returning the final state of the one object it
was handed, which is the only object it can mutate. -/
def improvedCreate (facility : OptionsObj → OptionsObj) (options : OptionsObj) :
    Except OptionsObj OptionsObj :=
  let clone := options
  let keys := clone.entries.length
  let _result := facility (dateTimeFormatArg clone)
  if clone.entries.length ≠ keys then .error options else .ok clone

/-- An IE11-style facility that silently deletes the weekday key from the
options object it is handed. -/
def deletingFacility : OptionsObj → OptionsObj :=
  fun o => ⟨o.entries.filter (fun e => e.1 ≠ "weekday")⟩

/-- C8: evaluating the construction at a facility that deletes a key shows
the detection never fires: construction succeeds even though the facility
removed the weekday key, because the facility only ever receives a fresh
spread of the clone whose key count is checked. -/
theorem claim8_detection_dead :
    improvedCreate deletingFacility ⟨[("weekday", "short")]⟩ =
      .ok ⟨[("weekday", "short")]⟩ := by
  rfl

/-- For every facility behaviour and every options object the construction
succeeds and hands back the unchanged options: the key-count check compares
the untouched clone with itself. -/
theorem improvedCreate_never_errors (facility : OptionsObj → OptionsObj)
    (options : OptionsObj) :
    improvedCreate facility options = .ok options := by
  simp [improvedCreate]

/-! ## Currency decimals (C10) -/

/-- A generated currency table entry: its registered decimal places. -/
structure CurrencyDef where
  decimals : Nat
deriving DecidableEq, Repr

/-- Embeds decimalsFor: the registered decimal places of a code present in
the generated currencies table, and 2 for an absent code. -/
def decimalsFor (table : List (String × CurrencyDef)) (code : String) : Nat :=
  match table.lookup code with
  | some c => c.decimals
  | none => 2

/-- The resolved configuration of the money Formatter.create call. -/
structure NumberFormatOptions where
  currencyDisplay : String
  currency : String
  style : String
  minimumFractionDigits : Nat
  maximumFractionDigits : Nat
deriving DecidableEq, Repr

/-- Embeds Formatter.create: a currency-style number format whose maximum
fraction digits are decimalsFor of the requested code. -/
def formatterCreate (table : List (String × CurrencyDef)) (currency : String)
    (currencyDisplay : String) : NumberFormatOptions :=
  ⟨currencyDisplay, currency, "currency", 0, decimalsFor table currency⟩

/-- C10: an ISO code absent from the currencies table gets 2 decimal places
(so the formatter is configured for at most 2 fraction digits), while a
present code gets its registered decimals. -/
theorem claim10_unknown_currency_decimals (table : List (String × CurrencyDef))
    (code : String) :
    (table.lookup code = none → decimalsFor table code = 2 ∧
      ∀ disp, (formatterCreate table code disp).maximumFractionDigits = 2)
    ∧ ∀ c, table.lookup code = some c → decimalsFor table code = c.decimals ∧
      ∀ disp, (formatterCreate table code disp).maximumFractionDigits = c.decimals := by
  constructor
  · intro h
    constructor
    · simp [decimalsFor, h]
    · intro disp
      simp [formatterCreate, decimalsFor, h]
  · intro c h
    constructor
    · simp [decimalsFor, h]
    · intro disp
      simp [formatterCreate, decimalsFor, h]

/-- C10 witness: with a table registering JPY at 0 decimals, the unknown
code XYZ is formatted with maximum 2 fraction digits and JPY with 0. -/
theorem claim10_witness :
    decimalsFor [("JPY", ⟨0⟩)] "XYZ" = 2 ∧
      (formatterCreate [("JPY", ⟨0⟩)] "JPY" "code").maximumFractionDigits = 0 := by
  refine ⟨((claim10_unknown_currency_decimals [("JPY", ⟨0⟩)] "XYZ").1 (by rfl)).1, ?_⟩
  exact ((claim10_unknown_currency_decimals [("JPY", ⟨0⟩)] "JPY").2 ⟨0⟩ (by rfl)).2 "code"

/-! ## The generated date matcher (RegexBuilder.regexParser / RegexParser) -/

/-- The base-10 digit character for a value below ten. -/
def digCh (n : Nat) : Char := Char.ofNat (48 + n)

/-- The atoms of the generated date pattern, one per typed part: year is
exactly four digits, day is one or two digits (greedy), month is one or two
digits or any month name, weekday is any weekday name, and a literal span is
a lazy one-or-more run over its character class. -/
inductive MAtom where
  | yearAtom
  | dayAtom
  | monthAtom (names : List (List Char))
  | weekdayAtom (names : List (List Char))
  | litClass (chars : List Char)
deriving DecidableEq, Repr

/-- Take exactly k characters when they are all digits. -/
def takeDigits (k : Nat) (cs : List Char) : Option (List Char × List Char) :=
  if (cs.take k).length = k ∧ (cs.take k).all isDigitChar then
    some (cs.take k, cs.drop k)
  else none

/-- Alternation candidates over a name list, in list order. -/
def nameCands (names : List (List Char)) (cs : List Char) :
    List (List Char × List Char) :=
  names.filterMap (fun nm =>
    if cs.take nm.length = nm then some (nm, cs.drop nm.length) else none)

/-- The candidate (token, rest) splits of one atom against an input suffix,
in the order a backtracking regex engine tries them: greedy two-then-one for
the digit quantifier, digits before the name alternation inside the month
group, and shortest-first for the lazy literal run. -/
def candidates (a : MAtom) (cs : List Char) : List (List Char × List Char) :=
  match a with
  | .yearAtom => (takeDigits 4 cs).toList
  | .dayAtom => (takeDigits 2 cs).toList ++ (takeDigits 1 cs).toList
  | .monthAtom names =>
    (takeDigits 2 cs).toList ++ (takeDigits 1 cs).toList ++ nameCands names cs
  | .weekdayAtom names => nameCands names cs
  | .litClass chars =>
    (List.range (cs.takeWhile (fun c => decide (c ∈ chars))).length).map
      (fun i => (cs.take (i + 1), cs.drop (i + 1)))

/-- The named captures of the generated date pattern. -/
structure MGroups where
  year : Option (List Char)
  month : Option (List Char)
  day : Option (List Char)
  weekday : Option (List Char)
deriving DecidableEq, Repr

/-- No group captured yet. -/
def emptyGroups : MGroups := ⟨none, none, none, none⟩

/-- Record an atom's captured token in its named group; literal spans of the
parsing pattern are not capture groups. -/
def setGroup (a : MAtom) (tok : List Char) (g : MGroups) : MGroups :=
  match a with
  | .yearAtom => {g with year := some tok}
  | .dayAtom => {g with day := some tok}
  | .monthAtom _ => {g with month := some tok}
  | .weekdayAtom _ => {g with weekday := some tok}
  | .litClass _ => g

/-- Backtracking matcher for an atom sequence against an input suffix: try
each candidate split of the first atom in order, succeeding with the first
candidate whose continuation matches, exactly as the regex engine does. -/
def matchAtoms : List MAtom → List Char → Option (MGroups × List Char)
  | [], cs => some (emptyGroups, cs)
  | a :: rest, cs =>
    (candidates a cs).findSome? (fun tc =>
      (matchAtoms rest tc.2).map (fun gr => (setGroup a tc.1 gr.1, gr.2)))

/-- Unanchored leftmost search, as the generated pattern is applied by
String.match / RegExp.exec: try each start position left to right. -/
def searchMatch (atoms : List MAtom) : List Char → Option (MGroups × List Char)
  | [] =>
    match matchAtoms atoms [] with
    | some r => some r
    | none => none
  | c :: t =>
    match matchAtoms atoms (c :: t) with
    | some r => some r
    | none => searchMatch atoms t

/-- First-occurrence de-duplication of a character list, embedding unique
from the arrays helpers. -/
def uniqueChars (cs : List Char) : List Char :=
  cs.foldl (fun acc c => if acc.contains c then acc else acc ++ [c]) []

/-- Embeds RegexBuilder.regexParser's pattern emission: year becomes the
four-digit matcher, day the one-or-two-digit matcher, month the digit or
month-name alternation, weekday the weekday-name alternation, and every
other part a lazy character-class run over its value with a space always
added (ensureLiteralsAlwaysContainSpace). -/
def regexParserAtoms (monthNames weekdayNames : List (List Char))
    (parts : List DateTimeFormatPart) : List MAtom :=
  parts.map (fun part =>
    match part.type with
    | .year => .yearAtom
    | .month => .monthAtom monthNames
    | .day => .dayAtom
    | .weekday => .weekdayAtom weekdayNames
    | _ => .litClass (uniqueChars (part.value ++ [' '])))

/-- The numeric option handler applied to a captured group. -/
def numericHandler (tok : Option (List Char)) : Option Nat :=
  tok.bind parseIntModel

/-- Embeds the date(year, month, day) assembly of RegexParser.parse: the
year and day handlers parse integers, the month handler resolves through the
months lookup, and the weekday capture is never consulted. -/
def assembleDate (months : List (List Char × Nat)) (g : MGroups) : Option DateYMD :=
  match numericHandler g.year, g.month.bind (monthsParse months), numericHandler g.day with
  | some y, some m, some d => some ⟨y, m, d⟩
  | _, _, _ => none

/-- Embeds RegexParser.parse: lowercase the input with the locale case
folding, search the generated pattern, and assemble the date from the year,
month and day groups; a failed match or a handler exception is an error. -/
def regexParse (atoms : List MAtom) (months : List (List Char × Nat))
    (value : List Char) : Except DateError DateYMD :=
  match searchMatch atoms (toLowerL value) with
  | none => .error (.noMatch (toLowerL value))
  | some (g, _) =>
    match assembleDate months g with
    | some dt => .ok dt
    | none => .error (.noMatch (toLowerL value))

/-- Embeds the exec loop of RegexParser.parseAll: repeatedly search from the
end of the previous match, collecting one assembled date per match; the fuel
bounds the loop by the input length. -/
def regexParseAllAux (atoms : List MAtom) (months : List (List Char × Nat)) :
    Nat → List Char → Except DateError (List DateYMD)
  | 0, _ => .ok []
  | fuel + 1, cs =>
    match searchMatch atoms cs with
    | none => .ok []
    | some (g, rest) =>
      match assembleDate months g with
      | none => .error (.noMatch cs)
      | some dt =>
        match regexParseAllAux atoms months fuel rest with
        | .ok tail => .ok (dt :: tail)
        | .error e => .error e

/-- Embeds RegexParser.parseAll. -/
def regexParseAll (atoms : List MAtom) (months : List (List Char × Nat))
    (value : List Char) : Except DateError (List DateYMD) :=
  regexParseAllAux atoms months ((toLowerL value).length + 1) (toLowerL value)

/-- A RegexParser packaged under the DateParser interface. -/
def regexParserM (atoms : List MAtom) (months : List (List Char × Nat)) : DateParserM :=
  ⟨regexParse atoms months, regexParseAll atoms months⟩

/-! ## Modelled locale data and host formatter -/

/-- Modelled from the spec: the lowercase short month names of the modelled
locale's Months lookup (spec sections 4.1 and 8, en-GB style). -/
def monthNamesModel : List (List Char) :=
  [['j', 'a', 'n'], ['f', 'e', 'b'], ['m', 'a', 'r'], ['a', 'p', 'r'],
   ['m', 'a', 'y'], ['j', 'u', 'n'], ['j', 'u', 'l'], ['a', 'u', 'g'],
   ['s', 'e', 'p'], ['o', 'c', 't'], ['n', 'o', 'v'], ['d', 'e', 'c']]

/-- Modelled from the spec: the month lookup table pairing each rendered
name with its 1-based month number. -/
def monthsTableModel : List (List Char × Nat) :=
  [(['j', 'a', 'n'], 1), (['f', 'e', 'b'], 2), (['m', 'a', 'r'], 3),
   (['a', 'p', 'r'], 4), (['m', 'a', 'y'], 5), (['j', 'u', 'n'], 6),
   (['j', 'u', 'l'], 7), (['a', 'u', 'g'], 8), (['s', 'e', 'p'], 9),
   (['o', 'c', 't'], 10), (['n', 'o', 'v'], 11), (['d', 'e', 'c'], 12)]

/-- Modelled from the spec: the lowercase short weekday names of the
modelled locale's Weekdays lookup. -/
def weekdayNamesModel : List (List Char) :=
  [['m', 'o', 'n'], ['t', 'u', 'e'], ['w', 'e', 'd'], ['t', 'h', 'u'],
   ['f', 'r', 'i'], ['s', 'a', 't'], ['s', 'u', 'n']]

/-- One or two digit characters, as the host facility renders an unpadded
numeric day or month. -/
def twoDigitsOrOne (n : Nat) : List Char :=
  if n < 10 then [digCh n] else [digCh (n / 10), digCh (n % 10)]

/-- Four digit characters, as the host facility renders a numeric year in
the range 1000 to 9999. -/
def fourDigits (n : Nat) : List Char :=
  [digCh (n / 1000), digCh (n / 100 % 10), digCh (n / 10 % 10), digCh (n % 10)]

/-- Two zero-padded digit characters, as the host facility renders a 2-digit
year. -/
def twoDigitsPad (n : Nat) : List Char :=
  [digCh (n / 10 % 10), digCh (n % 10)]

/-- Modelled from the spec: the host locale formatting facility for the
all-numeric day/month/year option set of the modelled locale, rendering
unpadded day and month and a four-digit year with slash separators (spec
section 8, scenarios 2, 3 and 5). -/
def hostFormatNumeric (d : DateYMD) : List Char :=
  twoDigitsOrOne d.day ++ '/' :: (twoDigitsOrOne d.month ++ '/' :: fourDigits d.year)

/-- Modelled from the spec: the same facility when the year option is
2-digit, which renders the year as its last two digits (spec section 6:
year accepts numeric or 2-digit display width). -/
def hostFormatTwoDigitYear (d : DateYMD) : List Char :=
  twoDigitsOrOne d.day ++ '/' :: (twoDigitsOrOne d.month ++ '/' :: twoDigitsPad (d.year % 100))

/-- The probe-derived part schema for the all-numeric option set: day,
slash, month, slash, year, as formatData returns it for the probe date. -/
def numericProbeParts : List DateTimeFormatPart :=
  [⟨.day, ['2', '0']⟩, ⟨.literal, ['/']⟩, ⟨.month, ['1', '1']⟩,
   ⟨.literal, ['/']⟩, ⟨.year, ['3', '3', '3', '3']⟩]

/-- The generated matcher for the all-numeric option set. -/
def numericAtoms : List MAtom :=
  regexParserAtoms monthNamesModel weekdayNamesModel numericProbeParts

/-- The probe-derived part schema for the short-month option set: day,
space, month name, space, year. -/
def shortMonthProbeParts : List DateTimeFormatPart :=
  [⟨.day, ['2', '0']⟩, ⟨.literal, [' ']⟩, ⟨.month, ['n', 'o', 'v']⟩,
   ⟨.literal, [' ']⟩, ⟨.year, ['3', '3', '3', '3']⟩]

/-- The generated matcher for the short-month option set. -/
def shortMonthAtoms : List MAtom :=
  regexParserAtoms monthNamesModel weekdayNamesModel shortMonthProbeParts

/-- The probe-derived part schema for the short-weekday short-month option
set: weekday, comma-space, day, space, month name, space, year. -/
def weekdayProbeParts : List DateTimeFormatPart :=
  [⟨.weekday, ['f', 'r', 'i']⟩, ⟨.literal, [',', ' ']⟩, ⟨.day, ['2', '0']⟩,
   ⟨.literal, [' ']⟩, ⟨.month, ['n', 'o', 'v']⟩, ⟨.literal, [' ']⟩,
   ⟨.year, ['3', '3', '3', '3']⟩]

/-- The generated matcher for the weekday option set. -/
def weekdayAtoms : List MAtom :=
  regexParserAtoms monthNamesModel weekdayNamesModel weekdayProbeParts

/-! ## Digit-rendering facts -/

theorem isDigit_digCh (k : Nat) (h : k < 10) : isDigitChar (digCh k) = true := by
  interval_cases k <;> decide

theorem digitVal_digCh (k : Nat) (h : k < 10) : digitVal (digCh k) = k := by
  interval_cases k <;> decide

theorem toLowerModel_digit (c : Char) (h : isDigitChar c = true) : toLowerModel c = c := by
  unfold toLowerModel
  rw [if_neg]
  unfold isDigitChar at h
  have hb := of_decide_eq_true h
  intro hc
  omega

theorem toLowerL_digits (cs : List Char) (h : cs.all isDigitChar = true) :
    toLowerL cs = cs := by
  induction cs with
  | nil => rfl
  | cons c rest ih =>
    simp only [List.all_cons, Bool.and_eq_true] at h
    show toLowerModel c :: toLowerL rest = c :: rest
    rw [toLowerModel_digit c h.1, ih h.2]

theorem toLowerL_append (a b : List Char) : toLowerL (a ++ b) = toLowerL a ++ toLowerL b := by
  simp [toLowerL]

theorem toLowerL_cons (c : Char) (t : List Char) :
    toLowerL (c :: t) = toLowerModel c :: toLowerL t := rfl

theorem twoDigitsOrOne_all (n : Nat) (h : n < 100) :
    (twoDigitsOrOne n).all isDigitChar = true := by
  unfold twoDigitsOrOne
  by_cases h10 : n < 10
  · rw [if_pos h10]
    simp [isDigit_digCh n h10]
  · rw [if_neg h10]
    simp [isDigit_digCh (n / 10) (by omega), isDigit_digCh (n % 10) (by omega)]

theorem twoDigitsOrOne_len (n : Nat) :
    (twoDigitsOrOne n).length = 1 ∨ (twoDigitsOrOne n).length = 2 := by
  unfold twoDigitsOrOne
  by_cases h10 : n < 10
  · rw [if_pos h10]; exact Or.inl rfl
  · rw [if_neg h10]; exact Or.inr rfl

theorem twoDigitsOrOne_ne_nil (n : Nat) : twoDigitsOrOne n ≠ [] := by
  unfold twoDigitsOrOne
  by_cases h10 : n < 10
  · rw [if_pos h10]; simp
  · rw [if_neg h10]; simp

theorem fourDigits_all (n : Nat) (h : n < 10000) :
    (fourDigits n).all isDigitChar = true := by
  unfold fourDigits
  simp [isDigit_digCh (n / 1000) (by omega), isDigit_digCh (n / 100 % 10) (by omega),
    isDigit_digCh (n / 10 % 10) (by omega), isDigit_digCh (n % 10) (by omega)]

theorem digitsToNat_twoDigitsOrOne (n : Nat) (h : n < 100) :
    digitsToNat (twoDigitsOrOne n) = n := by
  unfold twoDigitsOrOne digitsToNat
  by_cases h10 : n < 10
  · rw [if_pos h10]
    simp [List.foldl, digitVal_digCh n h10]
  · rw [if_neg h10]
    simp only [List.foldl, digitVal_digCh (n / 10) (by omega), digitVal_digCh (n % 10) (by omega)]
    omega

theorem digitsToNat_fourDigits (n : Nat) (h : n < 10000) :
    digitsToNat (fourDigits n) = n := by
  unfold fourDigits digitsToNat
  simp only [List.foldl, digitVal_digCh (n / 1000) (by omega),
    digitVal_digCh (n / 100 % 10) (by omega), digitVal_digCh (n / 10 % 10) (by omega),
    digitVal_digCh (n % 10) (by omega)]
  omega

theorem head_isDigit_fourDigits (n : Nat) (h : n < 10000) :
    ∀ x t, fourDigits n = x :: t → isDigitChar x = true := by
  intro x t hxt
  unfold fourDigits at hxt
  injection hxt with h1 _
  rw [← h1]
  exact isDigit_digCh _ (by omega)

theorem head_isDigit_twoDigitsOrOne_append (n : Nat) (h : n < 100) (R : List Char) :
    ∀ x t, twoDigitsOrOne n ++ R = x :: t → isDigitChar x = true := by
  intro x t hxt
  unfold twoDigitsOrOne at hxt
  by_cases h10 : n < 10
  · rw [if_pos h10] at hxt
    simp only [List.cons_append, List.nil_append] at hxt
    injection hxt with h1 _
    rw [← h1]
    exact isDigit_digCh _ h10
  · rw [if_neg h10] at hxt
    simp only [List.cons_append, List.nil_append] at hxt
    injection hxt with h1 _
    rw [← h1]
    exact isDigit_digCh _ (by omega)

/-! ## Matcher step lemmas -/

theorem take_len_append (ds rest : List Char) : (ds ++ rest).take ds.length = ds := by
  induction ds with
  | nil => simp
  | cons c t ih => simp [ih]

theorem drop_len_append (ds rest : List Char) : (ds ++ rest).drop ds.length = rest := by
  induction ds with
  | nil => simp
  | cons c t ih => simp [ih]

theorem takeDigits_exact (k : Nat) (ds rest : List Char) (hlen : ds.length = k)
    (hdig : ds.all isDigitChar = true) :
    takeDigits k (ds ++ rest) = some (ds, rest) := by
  subst hlen
  unfold takeDigits
  rw [take_len_append, drop_len_append]
  simp [hdig]

theorem takeDigits_two_nondigit (a b : Char) (rest : List Char)
    (hb : isDigitChar b = false) :
    takeDigits 2 (a :: b :: rest) = none := by
  simp [takeDigits, hb]

theorem takeDigits_two_singleton (a : Char) : takeDigits 2 [a] = none := by
  simp [takeDigits]

theorem takeDigits_one_digit (a : Char) (rest : List Char) (ha : isDigitChar a = true) :
    takeDigits 1 (a :: rest) = some ([a], rest) := by
  simp [takeDigits, ha]

theorem digit_notin_class (chars : List Char)
    (hch : chars.all (fun c => !isDigitChar c) = true)
    (x : Char) (hx : isDigitChar x = true) : decide (x ∈ chars) = false := by
  rw [decide_eq_false_iff_not]
  intro hmem
  have hfalse := List.all_eq_true.mp hch x hmem
  rw [hx] at hfalse
  simp at hfalse

theorem digitsCandidates_eq (ds rest : List Char) (X : List (List Char × List Char))
    (hdig : ds.all isDigitChar = true) (hlen : ds.length = 1 ∨ ds.length = 2)
    (hrest : ∀ c t, rest = c :: t → isDigitChar c = false) :
    ∃ junk, (takeDigits 2 (ds ++ rest)).toList ++ (takeDigits 1 (ds ++ rest)).toList ++ X
      = (ds, rest) :: junk := by
  rcases hlen with h1 | h2
  · obtain ⟨a, ha⟩ := List.length_eq_one.mp h1
    subst ha
    simp only [List.all_cons, List.all_nil, Bool.and_true] at hdig
    cases rest with
    | nil =>
      refine ⟨X, ?_⟩
      rw [show ([a] ++ [] : List Char) = [a] from by simp]
      rw [takeDigits_two_singleton, takeDigits_one_digit a [] hdig]
      simp
    | cons b t =>
      have hb := hrest b t rfl
      refine ⟨X, ?_⟩
      rw [show [a] ++ b :: t = a :: b :: t from rfl]
      rw [takeDigits_two_nondigit a b t hb, takeDigits_one_digit a (b :: t) hdig]
      simp
  · obtain ⟨a, b, hab⟩ := List.length_eq_two.mp h2
    subst hab
    simp only [List.all_cons, List.all_nil, Bool.and_true, Bool.and_eq_true] at hdig
    refine ⟨(takeDigits 1 ([a, b] ++ rest)).toList ++ X, ?_⟩
    rw [takeDigits_exact 2 [a, b] rest rfl (by simp [hdig.1, hdig.2])]
    simp

theorem candidates_day_eq (ds rest : List Char)
    (hdig : ds.all isDigitChar = true) (hlen : ds.length = 1 ∨ ds.length = 2)
    (hrest : ∀ c t, rest = c :: t → isDigitChar c = false) :
    ∃ junk, candidates .dayAtom (ds ++ rest) = (ds, rest) :: junk := by
  obtain ⟨junk, hj⟩ := digitsCandidates_eq ds rest [] hdig hlen hrest
  rw [List.append_nil] at hj
  exact ⟨junk, hj⟩

theorem candidates_month_eq (names : List (List Char)) (ds rest : List Char)
    (hdig : ds.all isDigitChar = true) (hlen : ds.length = 1 ∨ ds.length = 2)
    (hrest : ∀ c t, rest = c :: t → isDigitChar c = false) :
    ∃ junk, candidates (.monthAtom names) (ds ++ rest) = (ds, rest) :: junk :=
  digitsCandidates_eq ds rest (nameCands names (ds ++ rest)) hdig hlen hrest

theorem candidates_year_eq (ds rest : List Char)
    (hdig : ds.all isDigitChar = true) (hlen : ds.length = 4) :
    candidates .yearAtom (ds ++ rest) = [(ds, rest)] := by
  simp [candidates, takeDigits_exact 4 ds rest hlen hdig]

theorem candidates_lit_single (c : Char) (chars rest : List Char)
    (hc : decide (c ∈ chars) = true)
    (hrest : ∀ x t, rest = x :: t → decide (x ∈ chars) = false) :
    candidates (.litClass chars) (c :: rest) = [([c], rest)] := by
  have htw : (c :: rest).takeWhile (fun x => decide (x ∈ chars)) = [c] := by
    cases rest with
    | nil => simp [List.takeWhile_cons, hc]
    | cons x t =>
      have hx := hrest x t rfl
      simp [List.takeWhile_cons, hc, hx]
  simp [candidates, htw, List.range_succ, List.range_zero]

theorem matchAtoms_cons_of_head (a : MAtom) (atomsRest : List MAtom)
    (cs tok rest : List Char) (junk : List (List Char × List Char))
    (hc : candidates a cs = (tok, rest) :: junk)
    (gr : MGroups × List Char) (hrec : matchAtoms atomsRest rest = some gr) :
    matchAtoms (a :: atomsRest) cs = some (setGroup a tok gr.1, gr.2) := by
  show (candidates a cs).findSome? (fun tc =>
      (matchAtoms atomsRest tc.2).map (fun g2 => (setGroup a tc.1 g2.1, g2.2))) = _
  rw [hc]
  simp [List.findSome?, hrec]

theorem searchMatch_of_match (atoms : List MAtom) (cs : List Char)
    (r : MGroups × List Char) (h : matchAtoms atoms cs = some r) :
    searchMatch atoms cs = some r := by
  cases cs with
  | nil => simp [searchMatch, h]
  | cons c t => simp [searchMatch, h]

theorem takeWhile_of_all (p : Char → Bool) (l : List Char) (h : l.all p = true) :
    l.takeWhile p = l := by
  induction l with
  | nil => rfl
  | cons c t ih =>
    simp only [List.all_cons, Bool.and_eq_true] at h
    simp [List.takeWhile_cons, h.1, ih h.2]

theorem parseIntModel_digits (ds : List Char) (hne : ds ≠ [])
    (hdig : ds.all isDigitChar = true) :
    parseIntModel ds = some (digitsToNat ds) := by
  unfold parseIntModel
  rw [takeWhile_of_all isDigitChar ds hdig]
  cases ds with
  | nil => exact absurd rfl hne
  | cons c t => rfl

theorem monthsParse_digits (table : List (List Char × Nat)) (ds : List Char)
    (hne : ds ≠ []) (hdig : ds.all isDigitChar = true) :
    monthsParse table ds = some (digitsToNat ds) := by
  unfold monthsParse
  rw [if_pos ⟨hne, hdig⟩]

/-- C1 counterexample: with the year display width 2-digit (a supported
option value), the facility renders 25/1/19 for 25 January 2019, but the
generated matcher still demands four year digits, so parsing the formatted
string fails instead of returning the original date. -/
theorem claim1_counterexample :
    hostFormatTwoDigitYear ⟨2019, 1, 25⟩ = ['2', '5', '/', '1', '/', '1', '9'] ∧
      regexParse numericAtoms monthsTableModel (hostFormatTwoDigitYear ⟨2019, 1, 25⟩) =
        .error (.noMatch ['2', '5', '/', '1', '/', '1', '9']) := by
  exact ⟨rfl, rfl⟩

/-- C1 amended: parsing the formatted string returns the original date for
every date of the modelled locale's all-numeric option set, whose year
renders with four digits; the round-trip fails for the 2-digit year width
because the generated matcher always requires four year digits. -/
theorem claim1_roundtrip_numeric (y m d : Nat)
    (hy1 : 1000 ≤ y) (hy2 : y ≤ 9999) (hm1 : 1 ≤ m) (hm2 : m ≤ 12)
    (hd1 : 1 ≤ d) (hd2 : d ≤ 31) :
    regexParse numericAtoms monthsTableModel (hostFormatNumeric ⟨y, m, d⟩) =
      .ok ⟨y, m, d⟩ := by
  have hD := twoDigitsOrOne_all d (by omega)
  have hDlen := twoDigitsOrOne_len d
  have hM := twoDigitsOrOne_all m (by omega)
  have hMlen := twoDigitsOrOne_len m
  have hY := fourDigits_all y (by omega)
  have hfmt : hostFormatNumeric ⟨y, m, d⟩ =
      twoDigitsOrOne d ++ '/' :: (twoDigitsOrOne m ++ '/' :: fourDigits y) := rfl
  have hlow : toLowerL (hostFormatNumeric ⟨y, m, d⟩) = hostFormatNumeric ⟨y, m, d⟩ := by
    rw [hfmt, toLowerL_append, toLowerL_cons, toLowerL_append, toLowerL_cons,
      toLowerL_digits _ hD, toLowerL_digits _ hM, toLowerL_digits _ hY]
    rw [show toLowerModel '/' = '/' from by decide]
  -- innermost: the year atom against the four year digits
  have hstepY : matchAtoms [MAtom.yearAtom] (fourDigits y) =
      some (setGroup .yearAtom (fourDigits y) emptyGroups, []) := by
    have hcand := candidates_year_eq (fourDigits y) [] hY rfl
    have h := matchAtoms_cons_of_head .yearAtom [] (fourDigits y ++ []) (fourDigits y) [] []
      hcand (emptyGroups, []) rfl
    simpa using h
  -- the literal before the year
  have hstep4 : matchAtoms [.litClass ['/', ' '], .yearAtom] ('/' :: fourDigits y) =
      some (setGroup .yearAtom (fourDigits y) emptyGroups, []) := by
    have hcand := candidates_lit_single '/' ['/', ' '] (fourDigits y) (by decide)
      (fun x t hxt => digit_notin_class ['/', ' '] (by decide) x
        (head_isDigit_fourDigits y (by omega) x t hxt))
    have h := matchAtoms_cons_of_head (.litClass ['/', ' ']) [.yearAtom] ('/' :: fourDigits y)
      ['/'] (fourDigits y) [] hcand _ hstepY
    simpa [setGroup] using h
  -- the month atom
  have hstep3 : matchAtoms [.monthAtom monthNamesModel, .litClass ['/', ' '], .yearAtom]
      (twoDigitsOrOne m ++ '/' :: fourDigits y) =
      some (setGroup (.monthAtom monthNamesModel) (twoDigitsOrOne m)
        (setGroup .yearAtom (fourDigits y) emptyGroups), []) := by
    obtain ⟨junk, hcand⟩ := candidates_month_eq monthNamesModel (twoDigitsOrOne m)
      ('/' :: fourDigits y) hM hMlen
      (fun c t hct => by injection hct with h1 _; rw [← h1]; decide)
    have h := matchAtoms_cons_of_head _ _ _ _ _ junk hcand _ hstep4
    simpa using h
  -- the literal between day and month
  have hstep2 : matchAtoms
      [.litClass ['/', ' '], .monthAtom monthNamesModel, .litClass ['/', ' '], .yearAtom]
      ('/' :: (twoDigitsOrOne m ++ '/' :: fourDigits y)) =
      some (setGroup (.monthAtom monthNamesModel) (twoDigitsOrOne m)
        (setGroup .yearAtom (fourDigits y) emptyGroups), []) := by
    have hcand := candidates_lit_single '/' ['/', ' '] (twoDigitsOrOne m ++ '/' :: fourDigits y)
      (by decide)
      (fun x t hxt => digit_notin_class ['/', ' '] (by decide) x
        (head_isDigit_twoDigitsOrOne_append m (by omega) _ x t hxt))
    have h := matchAtoms_cons_of_head (.litClass ['/', ' '])
      [.monthAtom monthNamesModel, .litClass ['/', ' '], .yearAtom]
      ('/' :: (twoDigitsOrOne m ++ '/' :: fourDigits y))
      ['/'] (twoDigitsOrOne m ++ '/' :: fourDigits y) [] hcand _ hstep3
    simpa [setGroup] using h
  -- the day atom
  have hstep1 : matchAtoms
      [.dayAtom, .litClass ['/', ' '], .monthAtom monthNamesModel, .litClass ['/', ' '],
        .yearAtom]
      (twoDigitsOrOne d ++ '/' :: (twoDigitsOrOne m ++ '/' :: fourDigits y)) =
      some (setGroup .dayAtom (twoDigitsOrOne d)
        (setGroup (.monthAtom monthNamesModel) (twoDigitsOrOne m)
          (setGroup .yearAtom (fourDigits y) emptyGroups)), []) := by
    obtain ⟨junk, hcand⟩ := candidates_day_eq (twoDigitsOrOne d)
      ('/' :: (twoDigitsOrOne m ++ '/' :: fourDigits y)) hD hDlen
      (fun c t hct => by injection hct with h1 _; rw [← h1]; decide)
    have h := matchAtoms_cons_of_head _ _ _ _ _ junk hcand _ hstep2
    simpa using h
  have hatoms : numericAtoms =
      [.dayAtom, .litClass ['/', ' '], .monthAtom monthNamesModel, .litClass ['/', ' '],
        .yearAtom] := rfl
  have hsearch : searchMatch numericAtoms (hostFormatNumeric ⟨y, m, d⟩) =
      some (setGroup .dayAtom (twoDigitsOrOne d)
        (setGroup (.monthAtom monthNamesModel) (twoDigitsOrOne m)
          (setGroup .yearAtom (fourDigits y) emptyGroups)), []) := by
    apply searchMatch_of_match
    rw [hatoms, hfmt]
    exact hstep1
  have hgroups : setGroup .dayAtom (twoDigitsOrOne d)
      (setGroup (.monthAtom monthNamesModel) (twoDigitsOrOne m)
        (setGroup .yearAtom (fourDigits y) emptyGroups)) =
      ⟨some (fourDigits y), some (twoDigitsOrOne m), some (twoDigitsOrOne d), none⟩ := rfl
  have hAss : assembleDate monthsTableModel
      (⟨some (fourDigits y), some (twoDigitsOrOne m), some (twoDigitsOrOne d), none⟩ :
        MGroups) = some ⟨y, m, d⟩ := by
    unfold assembleDate numericHandler
    simp only [Option.some_bind]
    rw [parseIntModel_digits (fourDigits y) (by simp [fourDigits]) hY]
    rw [parseIntModel_digits (twoDigitsOrOne d) (twoDigitsOrOne_ne_nil d) hD]
    rw [monthsParse_digits monthsTableModel (twoDigitsOrOne m) (twoDigitsOrOne_ne_nil m) hM]
    rw [digitsToNat_fourDigits y (by omega), digitsToNat_twoDigitsOrOne m (by omega),
      digitsToNat_twoDigitsOrOne d (by omega)]
  unfold regexParse
  rw [hlow, hsearch, hgroups]
  simp [hAss]

/-- C1 witness: the round-trip at a concrete supported numeric triple. -/
theorem claim1_witness :
    regexParse numericAtoms monthsTableModel (hostFormatNumeric ⟨2019, 1, 25⟩) =
      .ok ⟨2019, 1, 25⟩ :=
  claim1_roundtrip_numeric 2019 1 25 (by decide) (by decide) (by decide) (by decide)
    (by decide) (by decide)

/-! ## parseAll composition (C5) and weekday insensitivity (C9) -/

/-- Concatenation of a list of result lists, embedding flatten from the
arrays helpers. -/
def joinAll {α : Type} : List (List α) → List α
  | [] => []
  | l :: ls => l ++ joinAll ls

/-- Occurrence count of a date in a result list. -/
def countD (dt : DateYMD) : List DateYMD → Nat
  | [] => 0
  | x :: rest => (if x = dt then 1 else 0) + countD dt rest

theorem countD_append (dt : DateYMD) (a b : List DateYMD) :
    countD dt (a ++ b) = countD dt a + countD dt b := by
  induction a with
  | nil => simp [countD]
  | cons x a ih =>
    show (if x = dt then 1 else 0) + countD dt (a ++ b) =
      ((if x = dt then 1 else 0) + countD dt a) + countD dt b
    rw [ih]
    omega

/-- The candidate parser generated for the all-numeric default option set. -/
def numericParser : DateParserM := regexParserM numericAtoms monthsTableModel

/-- The candidate parser generated for the short-month default option set. -/
def shortMonthParser : DateParserM := regexParserM shortMonthAtoms monthsTableModel

/-- C5 counterexample: two default candidate parsers (numeric and
short-month) both match the whole span of 25 Jan 2019 — the numeric
candidate through its month-name alternation and space-tolerant literal
classes — and the composite parseAll returns the span's value twice. -/
theorem claim5_counterexample :
    compositeParseAll [numericParser, shortMonthParser] ("25 Jan 2019").data =
      .ok [⟨2019, 1, 25⟩, ⟨2019, 1, 25⟩] := by
  rfl

/-- C5 amended: when every candidate scan succeeds, the composite parseAll
returns the plain concatenation of the candidates' matches in candidate
order, with no de-duplication: the multiplicity of a date in the result is
the sum of its multiplicities over the candidates, so a span matched by two
candidates yields its value twice. -/
theorem claim5_parseAll_concatenates (ps : List DateParserM) (v : List Char)
    (rs : List (List DateYMD))
    (h : ps.map (fun p => p.parseAll v) = rs.map Except.ok) :
    compositeParseAll ps v = .ok (joinAll rs) ∧
      ∀ dt, countD dt (joinAll rs) = (rs.map (fun l => countD dt l)).sum := by
  constructor
  · induction ps generalizing rs with
    | nil =>
      cases rs with
      | nil => rfl
      | cons r rs' => simp at h
    | cons p ps ih =>
      cases rs with
      | nil => simp at h
      | cons r rs' =>
        simp only [List.map_cons, List.cons.injEq] at h
        show Except.bind (p.parseAll v) _ = _
        rw [h.1]
        show Except.bind (compositeParseAll ps v) _ = _
        rw [ih rs' h.2]
        rfl
  · intro dt
    clear h
    induction rs with
    | nil => rfl
    | cons r rs' ih =>
      simp only [joinAll, countD_append, ih, List.map_cons, List.sum_cons]

/-- C5 witness: the amended statement at the concrete two-candidate
composite, whose result holds 25 January 2019 twice. -/
theorem claim5_witness :
    compositeParseAll [numericParser, shortMonthParser] ("25 Jan 2019").data =
      .ok (joinAll [[⟨2019, 1, 25⟩], [⟨2019, 1, 25⟩]]) ∧
      ∀ dt, countD dt (joinAll [[⟨2019, 1, 25⟩], [⟨2019, 1, 25⟩]]) =
        ([[⟨2019, 1, 25⟩], [⟨2019, 1, 25⟩]].map (fun l => countD dt l)).sum :=
  claim5_parseAll_concatenates [numericParser, shortMonthParser] ("25 Jan 2019").data
    [[⟨2019, 1, 25⟩], [⟨2019, 1, 25⟩]] (by rfl)

/-- A candidate that always fails. -/
def alwaysFailParser : DateParserM :=
  ⟨fun v => .error (.noMatch v), fun _ => .ok []⟩

/-- C2 witness: a two-candidate composite whose first candidate fails and
whose second succeeds returns the second candidate's date. -/
theorem claim2_witness :
    compositeParse [alwaysFailParser, numericParser] ("25/1/2019").data =
      .ok ⟨2019, 1, 25⟩ :=
  ((claim2_composite_first_success [alwaysFailParser, numericParser] ("25/1/2019").data).1
      ⟨2019, 1, 25⟩).mpr
    ⟨[alwaysFailParser], numericParser, [], rfl,
      fun q hq => by rw [List.mem_singleton] at hq; subst hq; rfl, by rfl⟩

/-- C9: the assembled date is computed only from the year, month and day
groups — the weekday capture is never consulted, so any two captures
agreeing on those three groups give the same date — and concretely the
parser of the weekday schema returns the same date for inputs differing
only in the (valid) weekday token, with no consistency check against the
resulting calendar date (25 January 2019 was a Friday, not a Monday). -/
theorem claim9_weekday_never_validated :
    (∀ (months : List (List Char × Nat)) (y m d w1 w2 : Option (List Char)),
      assembleDate months ⟨y, m, d, w1⟩ = assembleDate months ⟨y, m, d, w2⟩)
    ∧ regexParse weekdayAtoms monthsTableModel ("Fri, 25 Jan 2019").data =
        .ok ⟨2019, 1, 25⟩
    ∧ regexParse weekdayAtoms monthsTableModel ("Mon, 25 Jan 2019").data =
        .ok ⟨2019, 1, 25⟩ :=
  ⟨fun _ _ _ _ _ _ => rfl, rfl, rfl⟩

end TL
